import Mathlib

/-
Verification of the smart-title plugin core: model selector, context
extractor, context formatter, title sanitizer and update coordinator.
Strings are modelled as lists of characters (`Str`); the JavaScript
sources are translated function by function.
-/

namespace SmartTitle

/-- Strings are modelled as lists of characters. -/
abbrev Str := List Char

/-- Whitespace class used by the JS regex class and by trimming. -/
def isWs (c : Char) : Bool :=
  c == ' ' || c == '\t' || c == '\n' || c == '\r' || c == Char.ofNat 11 || c == Char.ofNat 12

/-- Left trim: drop leading whitespace. -/
def trimLeft (s : Str) : Str := s.dropWhile isWs

/-- Trim both ends, as JS trim does. -/
def trimStr (s : Str) : Str := ((trimLeft s).reverse.dropWhile isWs).reverse

/-- Does the second list start with the first (pattern) list? -/
def startsWith : Str → Str → Bool
  | [], _ => true
  | _ :: _, [] => false
  | p :: ps, c :: cs => p == c && startsWith ps cs

/-- Split a list of characters at every occurrence of a separator character,
as JS split does; the result is always non-empty. -/
def splitOnChar (sep : Char) : Str → List Str
  | [] => [[]]
  | d :: ds =>
    if d == sep then [] :: splitOnChar sep ds
    else
      match splitOnChar sep ds with
      | [] => [[d]]
      | l :: ls => (d :: l) :: ls

theorem startsWith_length {p s : Str} (h : startsWith p s = true) : p.length ≤ s.length := by
  induction p generalizing s with
  | nil => simp
  | cons a as ih =>
    cases s with
    | nil => simp [startsWith] at h
    | cons c cs =>
      simp only [startsWith, Bool.and_eq_true] at h
      simpa using ih h.2

theorem startsWith_iff_append {p s : Str} : startsWith p s = true ↔ ∃ t, s = p ++ t := by
  induction p generalizing s with
  | nil => simp [startsWith]
  | cons a as ih =>
    cases s with
    | nil => simp [startsWith]
    | cons c cs =>
      simp only [startsWith, Bool.and_eq_true, beq_iff_eq, ih, List.cons_append]
      constructor
      · rintro ⟨rfl, t, rfl⟩; exact ⟨t, rfl⟩
      · rintro ⟨t, h⟩
        cases h
        exact ⟨rfl, t, rfl⟩

theorem startsWith_append_self (p t : Str) : startsWith p (p ++ t) = true :=
  startsWith_iff_append.mpr ⟨t, rfl⟩

theorem splitOnChar_ne_nil (sep : Char) (s : Str) : splitOnChar sep s ≠ [] := by
  induction s with
  | nil => simp [splitOnChar]
  | cons d ds ih =>
    by_cases h : d == sep
    · simp [splitOnChar, h]
    · simp only [splitOnChar, h]
      cases hs : splitOnChar sep ds with
      | nil => simp
      | cons l ls => simp

theorem splitOnChar_cons_eq (sep d : Char) (ds : Str) :
    splitOnChar sep (d :: ds) =
      if d == sep then [] :: splitOnChar sep ds
      else
        match splitOnChar sep ds with
        | [] => [[d]]
        | l :: ls => (d :: l) :: ls := rfl

theorem splitOnChar_not_mem (sep : Char) (s : Str) :
    ∀ l ∈ splitOnChar sep s, sep ∉ l := by
  induction s with
  | nil =>
    intro l hl
    rw [show splitOnChar sep [] = [[]] from rfl] at hl
    rcases List.mem_cons.mp hl with rfl | hl
    · simp
    · simp at hl
  | cons d ds ih =>
    intro l hl
    rw [splitOnChar_cons_eq] at hl
    by_cases h : (d == sep) = true
    · rw [if_pos h] at hl
      rcases List.mem_cons.mp hl with rfl | hl
      · simp
      · exact ih l hl
    · rw [if_neg h] at hl
      cases hs : splitOnChar sep ds with
      | nil => exact absurd hs (splitOnChar_ne_nil sep ds)
      | cons a as =>
        rw [hs] at hl
        rcases List.mem_cons.mp hl with rfl | hl
        · intro hmem
          rcases List.mem_cons.mp hmem with rfl | hmem
          · exact h (beq_iff_eq.mpr rfl)
          · exact ih a (hs ▸ List.mem_cons_self a as) hmem
        · exact ih l (hs ▸ List.mem_cons_of_mem a hl)

theorem splitOnChar_of_not_mem {sep : Char} {l : Str} (h : sep ∉ l) :
    splitOnChar sep l = [l] := by
  induction l with
  | nil => rfl
  | cons d ds ih =>
    have hd : (d == sep) = false := by
      simp only [beq_eq_false_iff_ne]
      intro hde; exact h (hde ▸ List.mem_cons_self d ds)
    have hds : sep ∉ ds := fun hm => h (List.mem_cons_of_mem d hm)
    rw [splitOnChar_cons_eq, hd, ih hds]
    simp

theorem splitOnChar_append_sep {sep : Char} {l rest : Str} (h : sep ∉ l) :
    splitOnChar sep (l ++ sep :: rest) = l :: splitOnChar sep rest := by
  induction l with
  | nil =>
    rw [List.nil_append, splitOnChar_cons_eq]
    simp
  | cons d ds ih =>
    have hd : (d == sep) = false := by
      simp only [beq_eq_false_iff_ne]
      intro hde; exact h (hde ▸ List.mem_cons_self d ds)
    have hds : sep ∉ ds := fun hm => h (List.mem_cons_of_mem d hm)
    rw [List.cons_append, splitOnChar_cons_eq, hd, ih hds]
    simp

theorem splitOnChar_intercalate (sep : Char) :
    ∀ ls : List Str, ls ≠ [] → (∀ l ∈ ls, sep ∉ l) →
      splitOnChar sep (List.intercalate [sep] ls) = ls := by
  intro ls
  induction ls with
  | nil => intro h; exact absurd rfl h
  | cons l ls ih =>
    intro _ hmem
    cases ls with
    | nil =>
      have h1 : List.intercalate [sep] [l] = l := by
        simp [List.intercalate]
      rw [h1, splitOnChar_of_not_mem (hmem l (List.mem_cons_self l []))]
    | cons l2 ls2 =>
      have hl : sep ∉ l := hmem l (List.mem_cons_self _ _)
      have hrest : splitOnChar sep (List.intercalate [sep] (l2 :: ls2)) = l2 :: ls2 :=
        ih (by simp) (fun x hx => hmem x (List.mem_cons_of_mem l hx))
      have hform : List.intercalate [sep] (l :: l2 :: ls2) =
          l ++ sep :: List.intercalate [sep] (l2 :: ls2) := by
        simp [List.intercalate, List.intersperse]
      rw [hform, splitOnChar_append_sep hl, hrest]

theorem head?_dropWhile_false {α : Type} {p : α → Bool} {l : List α} {c : α}
    (h : (l.dropWhile p).head? = some c) : p c = false := by
  have hh := List.head?_dropWhile_not p l
  rw [h] at hh
  exact hh

theorem dropWhile_eq_self_of_head {p : Char → Bool} {s : Str}
    (h : ∀ c, s.head? = some c → p c = false) : s.dropWhile p = s := by
  cases s with
  | nil => rfl
  | cons a as =>
    have := h a rfl
    exact List.dropWhile_cons_of_neg (by simp [this])

theorem trimStr_eq_self {s : Str} (h1 : ∀ c, s.head? = some c → isWs c = false)
    (h2 : ∀ c, s.getLast? = some c → isWs c = false) : trimStr s = s := by
  unfold trimStr trimLeft
  rw [dropWhile_eq_self_of_head h1]
  rw [dropWhile_eq_self_of_head (by simpa using h2)]
  exact List.reverse_reverse s

theorem mem_trimStr {c : Char} {s : Str} (h : c ∈ trimStr s) : c ∈ s := by
  unfold trimStr trimLeft at h
  rw [List.mem_reverse] at h
  have h2 := (List.dropWhile_sublist (l := (s.dropWhile isWs).reverse) isWs).mem h
  rw [List.mem_reverse] at h2
  exact (List.dropWhile_sublist (l := s) isWs).mem h2

theorem length_trimStr_le (s : Str) : (trimStr s).length ≤ (trimLeft s).length := by
  unfold trimStr
  rw [List.length_reverse]
  calc ((trimLeft s).reverse.dropWhile isWs).length
      ≤ (trimLeft s).reverse.length := (List.dropWhile_sublist isWs).length_le
    _ = (trimLeft s).length := List.length_reverse _

theorem trimStr_getLast?_not_ws {s : Str} {c : Char}
    (h : (trimStr s).getLast? = some c) : isWs c = false := by
  unfold trimStr at h
  rw [List.getLast?_reverse] at h
  exact head?_dropWhile_false h

theorem trimStr_head?_not_ws {s : Str} {c : Char}
    (h : (trimStr s).head? = some c) : isWs c = false := by
  unfold trimStr at h
  rw [List.head?_reverse] at h
  have hne : ((trimLeft s).reverse.dropWhile isWs) ≠ [] := by
    intro hnil
    rw [hnil] at h
    simp at h
  obtain ⟨pre, hpre⟩ := List.dropWhile_suffix (l := (trimLeft s).reverse) isWs
  have hgl : ((trimLeft s).reverse.dropWhile isWs).getLast? = (trimLeft s).reverse.getLast? := by
    conv_rhs => rw [← hpre]
    rw [List.getLast?_append]
    cases hx : ((trimLeft s).reverse.dropWhile isWs).getLast? with
    | none =>
      exfalso
      exact hne (by simpa using hx)
    | some d => simp
  rw [hgl, List.getLast?_reverse] at h
  exact head?_dropWhile_false h

theorem trimStr_head_not_ws {r : Str} {c : Char} {t : Str}
    (hfix : trimStr r = r) (hr : r = c :: t) : isWs c = false :=
  trimStr_head?_not_ws (s := r) (by rw [hfix, hr]; rfl)

theorem trimStr_idem (s : Str) : trimStr (trimStr s) = trimStr s := by
  apply trimStr_eq_self
  · intro c hc
    exact trimStr_head?_not_ws hc
  · intro c hc
    exact trimStr_getLast?_not_ws hc

/-! ### Title sanitizer (cleanTitle in src/index.ts)

The JS code removes reasoning blocks with the global regex
`<think>[\s\S]*?<\/think>\s*`, splits into lines, trims each line, picks the
first non-empty one (or "Untitled"), and caps the result at 100 characters.
`scanStripF` models the regex engine scan: at each position it tries to match
the lazy pattern (start marker, shortest span to the first end marker, then a
maximal whitespace run) and removes the match. -/

/-- Start marker of a reasoning block. -/
def openTag : Str := "<think>".toList

/-- End marker of a reasoning block. -/
def closeTag : Str := "</think>".toList

/-- Scan for the first occurrence of the end marker; return what follows it. -/
def splitAfterClose : Str → Option Str
  | [] => none
  | c :: cs => if startsWith closeTag (c :: cs) then some (cs.drop 7) else splitAfterClose cs

theorem splitAfterClose_length : ∀ {l r : Str}, splitAfterClose l = some r → r.length + 8 ≤ l.length := by
  intro l
  induction l with
  | nil => intro r h; simp [splitAfterClose] at h
  | cons c cs ih =>
    intro r h
    rw [show splitAfterClose (c :: cs) =
        (if startsWith closeTag (c :: cs) then some (cs.drop 7) else splitAfterClose cs) from rfl] at h
    by_cases hsw : startsWith closeTag (c :: cs)
    · rw [if_pos hsw] at h
      have hlen : (8 : Nat) ≤ cs.length + 1 := by
        have := startsWith_length (p := closeTag) (s := c :: cs) hsw
        simpa [closeTag] using this
      cases h
      simp only [List.length_drop, List.length_cons]
      omega
    · rw [if_neg hsw] at h
      have := ih h
      simp only [List.length_cons]
      omega

/-- Fuel-indexed regex scan; with fuel at least the string length the fuel
never runs out. -/
def scanStripF : Nat → Str → Str
  | 0, s => s
  | _ + 1, [] => []
  | f + 1, c :: cs =>
    if startsWith openTag (c :: cs) then
      match splitAfterClose (cs.drop 6) with
      | some rest => scanStripF f (rest.dropWhile isWs)
      | none => c :: scanStripF f cs
    else c :: scanStripF f cs

theorem scanStripF_cons (f : Nat) (c : Char) (cs : Str) :
    scanStripF (f + 1) (c :: cs) =
      if startsWith openTag (c :: cs) then
        match splitAfterClose (cs.drop 6) with
        | some rest => scanStripF f (rest.dropWhile isWs)
        | none => c :: scanStripF f cs
      else c :: scanStripF f cs := rfl

theorem scanStripF_fuel : ∀ (f g : Nat) (s : Str), s.length ≤ f → s.length ≤ g →
    scanStripF f s = scanStripF g s := by
  intro f
  induction f with
  | zero =>
    intro g s hf _
    have : s = [] := List.length_eq_zero.mp (Nat.le_zero.mp hf)
    subst this
    cases g <;> rfl
  | succ f ih =>
    intro g s hf hg
    cases s with
    | nil => cases g <;> rfl
    | cons c cs =>
      cases g with
      | zero => simp at hg
      | succ g =>
        rw [scanStripF_cons, scanStripF_cons]
        by_cases hsw : startsWith openTag (c :: cs)
        · rw [if_pos hsw, if_pos hsw]
          cases hsp : splitAfterClose (cs.drop 6) with
          | some rest =>
            have hb := splitAfterClose_length hsp
            have hdl : (cs.drop 6).length ≤ cs.length := by
              simp only [List.length_drop]; omega
            have hrest : (rest.dropWhile isWs).length ≤ rest.length :=
              (List.dropWhile_sublist isWs).length_le
            have hcs : cs.length ≤ f := by
              have : (c :: cs).length = cs.length + 1 := rfl
              omega
            have hcs' : cs.length ≤ g := by
              have : (c :: cs).length = cs.length + 1 := rfl
              omega
            exact ih g (rest.dropWhile isWs) (by omega) (by omega)
          | none =>
            have hcs : cs.length ≤ f := by
              have : (c :: cs).length = cs.length + 1 := rfl
              omega
            have hcs' : cs.length ≤ g := by
              have : (c :: cs).length = cs.length + 1 := rfl
              omega
            rw [ih g cs hcs hcs']
        · rw [if_neg hsw, if_neg hsw]
          have hcs : cs.length ≤ f := by
            have : (c :: cs).length = cs.length + 1 := rfl
            omega
          have hcs' : cs.length ≤ g := by
            have : (c :: cs).length = cs.length + 1 := rfl
            omega
          rw [ih g cs hcs hcs']

/-- Remove every reasoning block (plus the whitespace run that follows it),
as the JS regex replace does. -/
def removeThinkBlocks (s : Str) : Str := scanStripF s.length s

/-- Split into lines, trim each, pick the first non-empty line, defaulting
to "Untitled". -/
def pickTitleLine (s : Str) : Str :=
  match ((splitOnChar '\n' s).map trimStr).find? (fun l => !l.isEmpty) with
  | some l => l
  | none => "Untitled".toList

/-- Cap a title at 100 characters, cutting to 97 plus an ellipsis marker. -/
def capTitle (s : Str) : Str := if 100 < s.length then s.take 97 ++ "...".toList else s

/-- The title sanitizer, translated from cleanTitle in src/index.ts. -/
def cleanTitle (raw : Str) : Str := capTitle (pickTitleLine (removeThinkBlocks raw))

theorem pickTitleLine_cases (s : Str) :
    pickTitleLine s = "Untitled".toList ∨
      ∃ x ∈ splitOnChar '\n' s, pickTitleLine s = trimStr x ∧ trimStr x ≠ [] := by
  unfold pickTitleLine
  cases hf : ((splitOnChar '\n' s).map trimStr).find? (fun l => !l.isEmpty) with
  | none => left; rfl
  | some l =>
    right
    have hmem := List.mem_of_find?_eq_some hf
    have hpred := List.find?_some hf
    obtain ⟨x, hx, hxl⟩ := List.mem_map.mp hmem
    refine ⟨x, hx, hxl.symm, ?_⟩
    rw [hxl]
    simpa using hpred

theorem C9_aux (s : Str) :
    pickTitleLine s ≠ [] ∧ '\n' ∉ pickTitleLine s ∧ trimStr (pickTitleLine s) = pickTitleLine s := by
  rcases pickTitleLine_cases s with h | ⟨x, hx, heq, hne⟩
  · rw [h]
    refine ⟨by decide, by decide, by decide⟩
  · rw [heq]
    refine ⟨hne, ?_, trimStr_idem x⟩
    intro hmem
    exact splitOnChar_not_mem '\n' s x hx (mem_trimStr hmem)

/-- C9: the sanitizer's output is non-empty, at most 100 characters, free of
newlines, and equal to its own trimmed form, for every input. -/
theorem C9_sanitizer_postconditions (raw : Str) :
    cleanTitle raw ≠ [] ∧ (cleanTitle raw).length ≤ 100 ∧
      '\n' ∉ cleanTitle raw ∧ trimStr (cleanTitle raw) = cleanTitle raw := by
  obtain ⟨hne, hnl, hfix⟩ := C9_aux (removeThinkBlocks raw)
  set r := pickTitleLine (removeThinkBlocks raw) with hr
  have hct : cleanTitle raw = capTitle r := rfl
  rw [hct]
  unfold capTitle
  by_cases h100 : 100 < r.length
  · rw [if_pos h100]
    have htake : (r.take 97).length = 97 := by
      rw [List.length_take]
      omega
    have hlen : (r.take 97 ++ "...".toList).length = 100 := by
      rw [List.length_append, htake]
      rfl
    constructor
    · intro hnil
      rw [hnil] at hlen
      simp at hlen
    constructor
    · omega
    constructor
    · intro hmem
      rcases List.mem_append.mp hmem with hm | hm
      · exact hnl (List.take_subset 97 r hm)
      · simp at hm
    · cases hcr : r with
      | nil => exact absurd hcr hne
      | cons a t =>
        apply trimStr_eq_self
        · intro c hc
          have h97 : List.take 97 (a :: t) = a :: List.take 96 t := by
            rw [show (97 : Nat) = 96 + 1 from rfl]
            exact List.take_succ_cons
          rw [h97, List.cons_append, List.head?_cons] at hc
          have : c = a := by simpa using hc.symm
          subst this
          exact trimStr_head_not_ws hfix hcr
        · intro c hc
          rw [List.getLast?_append] at hc
          have : ("...".toList).getLast? = some '.' := by decide
          rw [this] at hc
          simp only [Option.or_some, Option.some.injEq] at hc
          subst hc
          decide
  · rw [if_neg h100]
    exact ⟨hne, by omega, hnl, hfix⟩

/-! ### Splice-style view of block removal

`findTag` locates the first occurrence of a marker; the splice functions
remove the leftmost block (optionally with the whitespace run after it) and
recurse on the remainder.  `spliceNoWs` is the removal the spec describes
(start marker through end marker, inclusive, and nothing more); `spliceWs`
additionally removes the whitespace run, which is what the code's regex
consumes with its trailing whitespace class. -/

/-- Index of the first occurrence of a pattern, if any. -/
def findTag (pat : Str) : Str → Option Nat
  | [] => none
  | c :: cs => if startsWith pat (c :: cs) then some 0 else (findTag pat cs).map (· + 1)

theorem findTag_cons (pat : Str) (c : Char) (cs : Str) :
    findTag pat (c :: cs) =
      if startsWith pat (c :: cs) then some 0 else (findTag pat cs).map (· + 1) := rfl

theorem findTag_eq_none {pat : Str} (hp : pat ≠ []) :
    ∀ {s : Str}, findTag pat s = none ↔ ∀ i, startsWith pat (s.drop i) = false := by
  intro s
  induction s with
  | nil =>
    simp only [findTag, true_iff]
    intro i
    rw [List.drop_nil]
    cases pat with
    | nil => exact absurd rfl hp
    | cons p ps => rfl
  | cons c cs ih =>
    rw [findTag_cons]
    by_cases hsw : startsWith pat (c :: cs) = true
    · rw [if_pos hsw]
      constructor
      · intro h; exact absurd h (by simp)
      · intro h
        have h0 := h 0
        rw [List.drop_zero, hsw] at h0
        simp at h0
    · rw [if_neg hsw]
      constructor
      · intro h i
        have hn : findTag pat cs = none := by
          cases hf : findTag pat cs with
          | none => rfl
          | some k => rw [hf] at h; simp at h
        cases i with
        | zero =>
          rw [List.drop_zero]
          exact eq_false_of_ne_true hsw
        | succ i =>
          rw [List.drop_succ_cons]
          exact (ih.mp hn) i
      · intro h
        have hn : findTag pat cs = none := by
          apply ih.mpr
          intro i
          have := h (i + 1)
          rwa [List.drop_succ_cons] at this
        rw [hn]
        rfl

theorem findTag_some {pat : Str} : ∀ {s : Str} {i : Nat}, findTag pat s = some i →
    startsWith pat (s.drop i) = true ∧ ∀ j, j < i → startsWith pat (s.drop j) = false := by
  intro s
  induction s with
  | nil => intro i h; simp [findTag] at h
  | cons c cs ih =>
    intro i h
    rw [findTag_cons] at h
    by_cases hsw : startsWith pat (c :: cs) = true
    · rw [if_pos hsw] at h
      have : i = 0 := by simpa using h.symm
      subst this
      exact ⟨by simpa using hsw, fun j hj => absurd hj (Nat.not_lt_zero j)⟩
    · rw [if_neg hsw] at h
      cases hf : findTag pat cs with
      | none => rw [hf] at h; simp at h
      | some k =>
        rw [hf] at h
        have hik : i = k + 1 := by simpa using h.symm
        subst hik
        obtain ⟨h1, h2⟩ := ih hf
        refine ⟨by rwa [List.drop_succ_cons], ?_⟩
        intro j hj
        cases j with
        | zero =>
          rw [List.drop_zero]
          simpa using hsw
        | succ j =>
          rw [List.drop_succ_cons]
          exact h2 j (by omega)

theorem splitAfterClose_eq :
    ∀ l : Str, splitAfterClose l = (findTag closeTag l).map (fun j => l.drop (j + 8)) := by
  intro l
  induction l with
  | nil => rfl
  | cons c cs ih =>
    rw [show splitAfterClose (c :: cs) =
        (if startsWith closeTag (c :: cs) then some (cs.drop 7) else splitAfterClose cs) from rfl]
    rw [findTag_cons]
    by_cases hsw : startsWith closeTag (c :: cs) = true
    · rw [if_pos hsw, if_pos hsw]
      rfl
    · rw [if_neg hsw, if_neg hsw, ih]
      cases hf : findTag closeTag cs with
      | none => rfl
      | some j =>
        simp only [Option.map_some']
        have : (c :: cs).drop (j + 1 + 8) = cs.drop (j + 8) := by
          have he : j + 1 + 8 = (j + 8) + 1 := by omega
          rw [he, List.drop_succ_cons]
        rw [this]

/-- Fuel-indexed splice removal including the trailing whitespace run. -/
def spliceWsF : Nat → Str → Str
  | 0, s => s
  | f + 1, s =>
    match findTag openTag s with
    | none => s
    | some i =>
      match findTag closeTag (s.drop (i + 7)) with
      | none => s
      | some j => s.take i ++ spliceWsF f ((s.drop (i + 7 + (j + 8))).dropWhile isWs)

/-- Remove every block together with the whitespace run following it. -/
def spliceWs (s : Str) : Str := spliceWsF s.length s

/-- Fuel-indexed splice removal of the blocks only, as the spec words it. -/
def spliceNoWsF : Nat → Str → Str
  | 0, s => s
  | f + 1, s =>
    match findTag openTag s with
    | none => s
    | some i =>
      match findTag closeTag (s.drop (i + 7)) with
      | none => s
      | some j => s.take i ++ spliceNoWsF f (s.drop (i + 7 + (j + 8)))

/-- Remove every block, start marker through end marker inclusive. -/
def spliceNoWs (s : Str) : Str := spliceNoWsF s.length s

theorem spliceWsF_succ (f : Nat) (s : Str) :
    spliceWsF (f + 1) s =
      match findTag openTag s with
      | none => s
      | some i =>
        match findTag closeTag (s.drop (i + 7)) with
        | none => s
        | some j => s.take i ++ spliceWsF f ((s.drop (i + 7 + (j + 8))).dropWhile isWs) := rfl

theorem findTag_some_bound {pat : Str} {s : Str} {i : Nat} (hp : pat ≠ [])
    (h : findTag pat s = some i) : i + pat.length ≤ s.length := by
  have h1 := (findTag_some h).1
  have h2 := startsWith_length h1
  rw [List.length_drop] at h2
  have hpl : 0 < pat.length := by
    cases pat with
    | nil => exact absurd rfl hp
    | cons p ps => simp
  omega

theorem spliceWsF_fuel : ∀ (f g : Nat) (s : Str), s.length ≤ f → s.length ≤ g →
    spliceWsF f s = spliceWsF g s := by
  intro f
  induction f with
  | zero =>
    intro g s hf _
    have : s = [] := List.length_eq_zero.mp (Nat.le_zero.mp hf)
    subst this
    cases g with
    | zero => rfl
    | succ g => rfl
  | succ f ih =>
    intro g s hf hg
    cases g with
    | zero =>
      have : s = [] := List.length_eq_zero.mp (Nat.le_zero.mp hg)
      subst this
      rfl
    | succ g =>
      rw [spliceWsF_succ, spliceWsF_succ]
      split
      · rfl
      · rename_i i ho
        split
        · rfl
        · rename_i j hc
          have hslen : 1 ≤ s.length := by
            cases s with
            | nil => simp [findTag] at ho
            | cons a as => simp
          have hu : ((s.drop (i + 7 + (j + 8))).dropWhile isWs).length ≤ s.length - 1 := by
            have h1 : ((s.drop (i + 7 + (j + 8))).dropWhile isWs).length ≤
                (s.drop (i + 7 + (j + 8))).length := (List.dropWhile_sublist isWs).length_le
            rw [List.length_drop] at h1
            omega
          congr 1
          exact ih g _ (by omega) (by omega)

theorem scanStripF_cons_noopen {c : Char} {cs : Str} (f : Nat)
    (hsw : startsWith openTag (c :: cs) = false) :
    scanStripF (f + 1) (c :: cs) = c :: scanStripF f cs := by
  rw [scanStripF_cons, if_neg (by simp [hsw])]

theorem scanStripF_cons_close_none {c : Char} {cs : Str} (f : Nat)
    (hsw : startsWith openTag (c :: cs) = true)
    (hsp : splitAfterClose (cs.drop 6) = none) :
    scanStripF (f + 1) (c :: cs) = c :: scanStripF f cs := by
  rw [scanStripF_cons, if_pos hsw, hsp]

theorem scanStripF_cons_close_some {c : Char} {cs rest : Str} (f : Nat)
    (hsw : startsWith openTag (c :: cs) = true)
    (hsp : splitAfterClose (cs.drop 6) = some rest) :
    scanStripF (f + 1) (c :: cs) = scanStripF f (rest.dropWhile isWs) := by
  rw [scanStripF_cons, if_pos hsw, hsp]

/-- If no block start is ever followed by a block end, the scan leaves the
string unchanged (the regex finds no match). -/
theorem scanStripF_eq_self :
    ∀ s : Str,
      (∀ p q, startsWith openTag (s.drop p) = true →
        startsWith closeTag (s.drop (p + 7 + q)) = false) →
      ∀ f, scanStripF f s = s := by
  intro s
  induction s with
  | nil => intro _ f; cases f <;> rfl
  | cons c cs ih =>
    intro H f
    have Hcs : ∀ p q, startsWith openTag (cs.drop p) = true →
        startsWith closeTag (cs.drop (p + 7 + q)) = false := by
      intro p q hop
      have h1 : (c :: cs).drop (p + 1) = cs.drop p := List.drop_succ_cons
      have h2 : (c :: cs).drop (p + 1 + 7 + q) = cs.drop (p + 7 + q) := by
        have he : p + 1 + 7 + q = (p + 7 + q) + 1 := by omega
        rw [he, List.drop_succ_cons]
      have h3 := H (p + 1) q (by rw [h1]; exact hop)
      rwa [h2] at h3
    cases f with
    | zero => rfl
    | succ f =>
      by_cases hsw : startsWith openTag (c :: cs) = true
      · have hnone : splitAfterClose (cs.drop 6) = none := by
          rw [splitAfterClose_eq]
          have hfn : findTag closeTag (cs.drop 6) = none := by
            rw [findTag_eq_none (by decide : closeTag ≠ [])]
            intro q
            have h3 : (cs.drop 6).drop q = (c :: cs).drop (0 + 7 + q) := by
              rw [List.drop_drop]
              have he : 0 + 7 + q = (6 + q) + 1 := by omega
              rw [he, List.drop_succ_cons]
            rw [h3]
            exact H 0 q (by rw [List.drop_zero]; exact hsw)
          rw [hfn]
          rfl
        rw [scanStripF_cons_close_none f hsw hnone, ih Hcs f]
      · rw [scanStripF_cons_noopen f (eq_false_of_ne_true hsw), ih Hcs f]

/-- Characters before the first block start are emitted unchanged by the scan. -/
theorem scanStripF_append_free :
    ∀ (pre t : Str) (f : Nat), pre.length + t.length ≤ f →
      (∀ p, p < pre.length → startsWith openTag ((pre ++ t).drop p) = false) →
      scanStripF f (pre ++ t) = pre ++ scanStripF t.length t := by
  intro pre
  induction pre with
  | nil =>
    intro t f hf _
    rw [List.nil_append, List.nil_append]
    exact scanStripF_fuel f t.length t (by simpa using hf) le_rfl
  | cons c pre ih =>
    intro t f hf hfree
    cases f with
    | zero => simp at hf
    | succ f =>
      have h0 : startsWith openTag (c :: (pre ++ t)) = false := by
        have h := hfree 0 (by simp)
        rw [List.drop_zero, List.cons_append] at h
        exact h
      rw [List.cons_append, scanStripF_cons_noopen f h0]
      have hfree' : ∀ p, p < pre.length → startsWith openTag ((pre ++ t).drop p) = false := by
        intro p hp
        have h := hfree (p + 1) (by simp; omega)
        rw [List.cons_append, List.drop_succ_cons] at h
        exact h
      rw [ih t f (by simp at hf ⊢; omega) hfree', List.cons_append]

theorem spliceWsF_open_none {s : Str} (f : Nat) (ho : findTag openTag s = none) :
    spliceWsF (f + 1) s = s := by
  rw [spliceWsF_succ]
  split
  · rfl
  · rename_i i' ho'
    rw [ho] at ho'
    simp at ho'

theorem spliceWsF_close_none {s : Str} {i : Nat} (f : Nat)
    (ho : findTag openTag s = some i) (hc : findTag closeTag (s.drop (i + 7)) = none) :
    spliceWsF (f + 1) s = s := by
  rw [spliceWsF_succ]
  split
  · rfl
  · rename_i i' ho'
    have hii : i' = i := by rw [ho] at ho'; simpa using ho'.symm
    subst hii
    split
    · rfl
    · rename_i j hc'
      rw [hc] at hc'
      simp at hc'

theorem spliceWsF_close_some {s : Str} {i j : Nat} (f : Nat)
    (ho : findTag openTag s = some i) (hc : findTag closeTag (s.drop (i + 7)) = some j) :
    spliceWsF (f + 1) s = s.take i ++ spliceWsF f ((s.drop (i + 7 + (j + 8))).dropWhile isWs) := by
  rw [spliceWsF_succ]
  split
  · rename_i ho'
    rw [ho] at ho'
    simp at ho'
  · rename_i i' ho'
    have hii : i' = i := by rw [ho] at ho'; simpa using ho'.symm
    subst hii
    split
    · rename_i hc'
      rw [hc] at hc'
      simp at hc'
    · rename_i j' hc'
      have hjj : j' = j := by rw [hc] at hc'; simpa using hc'.symm
      subst hjj
      rfl

/-- The regex scan and the leftmost-block splice compute the same removal. -/
theorem removeThinkBlocks_eq_spliceWs : ∀ s : Str, removeThinkBlocks s = spliceWs s := by
  have main : ∀ (n : Nat) (s : Str), s.length ≤ n → removeThinkBlocks s = spliceWs s := by
    intro n
    induction n with
    | zero =>
      intro s hs
      have : s = [] := List.length_eq_zero.mp (Nat.le_zero.mp hs)
      subst this
      rfl
    | succ n ih =>
      intro s hs
      cases ho : findTag openTag s with
      | none =>
        have hscan : removeThinkBlocks s = s := by
          apply scanStripF_eq_self
          intro p q hop
          have h := (findTag_eq_none (by decide : openTag ≠ [])).mp ho p
          rw [hop] at h
          simp at h
        have hsplice : spliceWs s = s := by
          cases s with
          | nil => rfl
          | cons a as => exact spliceWsF_open_none as.length ho
        rw [hscan, hsplice]
      | some i =>
        obtain ⟨hswi, hmin⟩ := findTag_some ho
        have hi7 : i + 7 ≤ s.length := by
          have hb := findTag_some_bound (by decide : openTag ≠ []) ho
          have hol : openTag.length = 7 := rfl
          omega
        have hpos : 1 ≤ s.length := by omega
        have hlen1 : s.length = (s.length - 1) + 1 := by omega
        cases hc : findTag closeTag (s.drop (i + 7)) with
        | none =>
          have hsplice : spliceWs s = s := by
            show spliceWsF s.length s = s
            rw [hlen1]
            exact spliceWsF_close_none (s.length - 1) ho hc
          have hscan : removeThinkBlocks s = s := by
            apply scanStripF_eq_self
            intro p q hop
            have hpi : i ≤ p := by
              by_contra hlt
              have := hmin p (by omega)
              rw [hop] at this
              simp at this
            obtain ⟨d, rfl⟩ := Nat.exists_eq_add_of_le hpi
            have h := (findTag_eq_none (by decide : closeTag ≠ [])).mp hc (d + q)
            rw [List.drop_drop] at h
            have he : i + 7 + (d + q) = i + d + 7 + q := by omega
            rw [he] at h
            exact h
          rw [hscan, hsplice]
        | some j =>
          have hj8 : i + 7 + (j + 8) ≤ s.length := by
            have hb := findTag_some_bound (by decide : closeTag ≠ []) hc
            have hcl : closeTag.length = 8 := rfl
            rw [List.length_drop] at hb
            omega
          have hulen : ((s.drop (i + 7 + (j + 8))).dropWhile isWs).length ≤
              s.length - (i + 15) := by
            have h1 : ((s.drop (i + 7 + (j + 8))).dropWhile isWs).length ≤
                (s.drop (i + 7 + (j + 8))).length := (List.dropWhile_sublist isWs).length_le
            rw [List.length_drop] at h1
            omega
          have hsplice : spliceWs s =
              s.take i ++ spliceWs ((s.drop (i + 7 + (j + 8))).dropWhile isWs) := by
            show spliceWsF s.length s = _
            rw [hlen1, spliceWsF_close_some (s.length - 1) ho hc]
            congr 1
            exact spliceWsF_fuel (s.length - 1) _ _ (by omega) le_rfl
          have hscan : removeThinkBlocks s =
              s.take i ++ removeThinkBlocks ((s.drop (i + 7 + (j + 8))).dropWhile isWs) := by
            have hsplit : s = s.take i ++ s.drop i := (List.take_append_drop i s).symm
            have hfree : ∀ p, p < (s.take i).length →
                startsWith openTag ((s.take i ++ s.drop i).drop p) = false := by
              intro p hp
              rw [List.take_append_drop]
              apply hmin
              rw [List.length_take] at hp
              omega
            have h3 : removeThinkBlocks s = scanStripF s.length (s.take i ++ s.drop i) := by
              show scanStripF s.length s = _
              rw [← hsplit]
            rw [h3, scanStripF_append_free (s.take i) (s.drop i) s.length
              (by rw [← List.length_append, List.take_append_drop]) hfree]
            congr 1
            cases ht : s.drop i with
            | nil =>
              rw [ht] at hswi
              exact absurd hswi (by decide)
            | cons c cs =>
              rw [ht] at hswi
              have hcslen : cs.length + 1 = s.length - i := by
                have h4 := congrArg List.length ht
                rw [List.length_drop] at h4
                simpa using h4.symm
              have hsp : splitAfterClose (cs.drop 6) = some (s.drop (i + 7 + (j + 8))) := by
                have hcs6 : cs.drop 6 = s.drop (i + 7) := by
                  have h5 : (c :: cs).drop 7 = cs.drop 6 := rfl
                  rw [← h5, ← ht, List.drop_drop]
                rw [hcs6, splitAfterClose_eq, hc]
                simp only [Option.map_some']
                rw [List.drop_drop]
              show scanStripF (cs.length + 1) (c :: cs) = _
              rw [scanStripF_cons_close_some cs.length hswi hsp]
              exact scanStripF_fuel cs.length _ _ (by omega) le_rfl
          rw [hscan, hsplice]
          congr 1
          exact ih _ (by omega)
  intro s
  exact main s.length s le_rfl

/-- Sanitizer following the spec's wording exactly: every paired block is
removed from its start marker through its matching end marker, inclusive,
and nothing more; then lines are trimmed, the first non-empty one is chosen
(defaulting to "Untitled") and capped at 100 characters. -/
def sanitizeSpecDescribed (raw : Str) : Str := capTitle (pickTitleLine (spliceNoWs raw))

/-- Amended sanitizer: block removal also consumes the whitespace run that
immediately follows the end marker, as the code's regex does. -/
def sanitizeAmended (raw : Str) : Str := capTitle (pickTitleLine (spliceWs raw))

/-- C7 counterexample: the sanitizer does not agree with the claim's
description of block removal (start marker through end marker, inclusive):
on "a<think>x</think> \nb" the code also consumes the whitespace run after
the end marker and returns "ab", while the described pipeline returns "a". -/
theorem C7_sanitizer_counterexample :
    cleanTitle ("a<think>x</think> \nb".toList) ≠
        sanitizeSpecDescribed ("a<think>x</think> \nb".toList) ∧
      cleanTitle ("a<think>x</think> \nb".toList) = "ab".toList ∧
      sanitizeSpecDescribed ("a<think>x</think> \nb".toList) = "a".toList :=
  ⟨by decide, by decide, by decide⟩

/-- C7 amended: the sanitizer removes every paired reasoning block together
with the whitespace run immediately following its end marker, then picks the
first line with non-zero trimmed length (or "Untitled") and caps it at 100
characters; on the claim's example it returns "Fixing bug". -/
theorem C7_sanitizer_amended :
    (∀ raw : Str, cleanTitle raw = sanitizeAmended raw) ∧
      cleanTitle ("<think>reasoning</think>Fixing bug\nExtra line".toList) =
        "Fixing bug".toList := by
  constructor
  · intro raw
    unfold cleanTitle sanitizeAmended
    rw [removeThinkBlocks_eq_spliceWs]
  · decide

/-! ### Context extractor (extractSmartContext in src/index.ts)

Messages are filtered to user/assistant roles and grouped into turns: each
user message starts a new turn; the previous turn is pushed only when at
least one non-empty assistant text was collected for it; the trailing turn
is pushed unconditionally. -/

inductive Role
  | user
  | assistant
  | system
deriving DecidableEq

structure MsgPart where
  partType : Str
  text : Option Str
  synthetic : Bool
deriving DecidableEq

structure Message where
  role : Role
  created : Nat
  parts : List MsgPart
deriving DecidableEq

structure AssistantSummary where
  first : Str
  last : Str
  time : Nat
deriving DecidableEq

structure Turn where
  userText : Str
  userTime : Nat
  assistant : Option AssistantSummary
deriving DecidableEq

/-- Concatenate the non-synthetic text parts, joined by newline and trimmed. -/
def extractTextOnly (parts : List MsgPart) : Str :=
  trimStr (List.intercalate ['\n']
    ((parts.filter (fun p => p.partType == "text".toList && !p.synthetic)).map
      (fun p => p.text.getD [])))

/-- Close a turn, attaching the collected assistant texts if any. -/
def attachTurn (u : Str × Nat) (acc : List (Str × Nat)) : Turn :=
  match acc with
  | [] => ⟨u.1, u.2, none⟩
  | a :: rest => ⟨u.1, u.2, some ⟨a.1, ((a :: rest).getLastD a).1, a.2⟩⟩

/-- The grouping loop of extractSmartContext. -/
def groupTurns : List Message → Option (Str × Nat) → List (Str × Nat) → List Turn
  | [], none, _ => []
  | [], some u, acc => [attachTurn u acc]
  | m :: ms, cur, acc =>
    match m.role with
    | Role.user =>
      match cur with
      | some u =>
        if acc.isEmpty then groupTurns ms (some (extractTextOnly m.parts, m.created)) []
        else attachTurn u acc :: groupTurns ms (some (extractTextOnly m.parts, m.created)) []
      | none => groupTurns ms (some (extractTextOnly m.parts, m.created)) []
    | Role.assistant =>
      if (extractTextOnly m.parts).isEmpty then groupTurns ms cur acc
      else groupTurns ms cur (acc ++ [(extractTextOnly m.parts, m.created)])
    | Role.system => groupTurns ms cur acc

/-- Keep only user and assistant messages. -/
def conversationOf (msgs : List Message) : List Message :=
  msgs.filter (fun m => m.role == Role.user || m.role == Role.assistant)

/-- The context extractor: group the conversation into turns. -/
def extractTurns (msgs : List Message) : List Turn :=
  groupTurns (conversationOf msgs) none []

/-- Number of user messages in a history. -/
def userCount (msgs : List Message) : Nat :=
  (msgs.filter (fun m => m.role == Role.user)).length

/-- A message with a single plain text part. -/
def mkTextMsg (r : Role) (t : Nat) (s : Str) : Message :=
  ⟨r, t, [⟨"text".toList, some s, false⟩]⟩

theorem groupTurns_user_some (t : Nat) (parts : List MsgPart) (ms : List Message)
    (u : Str × Nat) (acc : List (Str × Nat)) :
    groupTurns (⟨Role.user, t, parts⟩ :: ms) (some u) acc =
      if acc.isEmpty then groupTurns ms (some (extractTextOnly parts, t)) []
      else attachTurn u acc :: groupTurns ms (some (extractTextOnly parts, t)) [] := rfl

theorem groupTurns_user_none (t : Nat) (parts : List MsgPart) (ms : List Message)
    (acc : List (Str × Nat)) :
    groupTurns (⟨Role.user, t, parts⟩ :: ms) none acc =
      groupTurns ms (some (extractTextOnly parts, t)) [] := rfl

theorem groupTurns_assistant_cons (t : Nat) (parts : List MsgPart) (ms : List Message)
    (cur : Option (Str × Nat)) (acc : List (Str × Nat)) :
    groupTurns (⟨Role.assistant, t, parts⟩ :: ms) cur acc =
      if (extractTextOnly parts).isEmpty then groupTurns ms cur acc
      else groupTurns ms cur (acc ++ [(extractTextOnly parts, t)]) := by
  cases cur <;> rfl

theorem groupTurns_system_cons (t : Nat) (parts : List MsgPart) (ms : List Message)
    (cur : Option (Str × Nat)) (acc : List (Str × Nat)) :
    groupTurns (⟨Role.system, t, parts⟩ :: ms) cur acc = groupTurns ms cur acc := by
  cases cur <;> rfl

theorem attachTurn_userTime (u : Str × Nat) (acc : List (Str × Nat)) :
    (attachTurn u acc).userTime = u.2 := by
  cases acc <;> rfl

theorem attachTurn_isSome {u : Str × Nat} {acc : List (Str × Nat)} (h : acc.isEmpty = false) :
    (attachTurn u acc).assistant.isSome = true := by
  cases acc with
  | nil => simp at h
  | cons a rest => rfl

theorem userCount_cons_user (t : Nat) (parts : List MsgPart) (ms : List Message) :
    userCount (⟨Role.user, t, parts⟩ :: ms) = userCount ms + 1 := by
  simp [userCount, List.filter_cons]

theorem userCount_cons_assistant (t : Nat) (parts : List MsgPart) (ms : List Message) :
    userCount (⟨Role.assistant, t, parts⟩ :: ms) = userCount ms := by
  simp [userCount, List.filter_cons]

theorem userCount_cons_system (t : Nat) (parts : List MsgPart) (ms : List Message) :
    userCount (⟨Role.system, t, parts⟩ :: ms) = userCount ms := by
  simp [userCount, List.filter_cons]

theorem groupTurns_length_le : ∀ (ms : List Message) (cur : Option (Str × Nat))
    (acc : List (Str × Nat)),
    (groupTurns ms cur acc).length ≤ cur.toList.length + userCount ms := by
  intro ms
  induction ms with
  | nil =>
    intro cur acc
    cases cur with
    | none => simp [groupTurns, userCount]
    | some u => simp [groupTurns, userCount]
  | cons m ms ih =>
    intro cur acc
    obtain ⟨r, t, parts⟩ := m
    cases r with
    | user =>
      rw [userCount_cons_user]
      cases cur with
      | none =>
        rw [groupTurns_user_none]
        have h := ih (some (extractTextOnly parts, t)) []
        simp only [Option.toList_some, List.length_cons, List.length_nil] at h ⊢
        omega
      | some u =>
        rw [groupTurns_user_some]
        by_cases ha : acc.isEmpty
        · rw [if_pos ha]
          have h := ih (some (extractTextOnly parts, t)) []
          simp only [Option.toList_some, List.length_cons, List.length_nil] at h ⊢
          omega
        · rw [if_neg ha]
          have h := ih (some (extractTextOnly parts, t)) []
          simp only [Option.toList_some, List.length_cons, List.length_nil] at h ⊢
          omega
    | assistant =>
      rw [userCount_cons_assistant, groupTurns_assistant_cons]
      by_cases he : (extractTextOnly parts).isEmpty
      · rw [if_pos he]
        exact ih cur acc
      · rw [if_neg he]
        exact ih cur _
    | system =>
      rw [userCount_cons_system, groupTurns_system_cons]
      exact ih cur acc

theorem groupTurns_length_pos : ∀ (ms : List Message) (cur : Option (Str × Nat))
    (acc : List (Str × Nat)),
    (cur.isSome = true ∨ ∃ m ∈ ms, m.role = Role.user) →
    1 ≤ (groupTurns ms cur acc).length := by
  intro ms
  induction ms with
  | nil =>
    intro cur acc h
    rcases h with h | ⟨m, hm, _⟩
    · cases cur with
      | none => simp at h
      | some u => simp [groupTurns]
    · simp at hm
  | cons m ms ih =>
    intro cur acc h
    obtain ⟨r, t, parts⟩ := m
    cases r with
    | user =>
      cases cur with
      | none =>
        rw [groupTurns_user_none]
        exact ih _ _ (Or.inl rfl)
      | some u =>
        rw [groupTurns_user_some]
        by_cases ha : acc.isEmpty
        · rw [if_pos ha]
          exact ih _ _ (Or.inl rfl)
        · rw [if_neg ha]
          simp
    | assistant =>
      have h' : cur.isSome = true ∨ ∃ m ∈ ms, m.role = Role.user := by
        rcases h with h | ⟨m, hm, hr⟩
        · exact Or.inl h
        · rcases List.mem_cons.mp hm with rfl | hm
          · simp at hr
          · exact Or.inr ⟨m, hm, hr⟩
      rw [groupTurns_assistant_cons]
      by_cases he : (extractTextOnly parts).isEmpty
      · rw [if_pos he]; exact ih _ _ h'
      · rw [if_neg he]; exact ih _ _ h'
    | system =>
      have h' : cur.isSome = true ∨ ∃ m ∈ ms, m.role = Role.user := by
        rcases h with h | ⟨m, hm, hr⟩
        · exact Or.inl h
        · rcases List.mem_cons.mp hm with rfl | hm
          · simp at hr
          · exact Or.inr ⟨m, hm, hr⟩
      rw [groupTurns_system_cons]
      exact ih _ _ h'

theorem groupTurns_dropLast_assistant : ∀ (ms : List Message) (cur : Option (Str × Nat))
    (acc : List (Str × Nat)),
    ∀ tn ∈ (groupTurns ms cur acc).dropLast, tn.assistant.isSome = true := by
  intro ms
  induction ms with
  | nil =>
    intro cur acc tn htn
    cases cur with
    | none => simp [groupTurns] at htn
    | some u => simp [groupTurns] at htn
  | cons m ms ih =>
    intro cur acc tn htn
    obtain ⟨r, t, parts⟩ := m
    cases r with
    | user =>
      cases cur with
      | none =>
        rw [groupTurns_user_none] at htn
        exact ih _ _ tn htn
      | some u =>
        rw [groupTurns_user_some] at htn
        by_cases ha : acc.isEmpty
        · rw [if_pos ha] at htn
          exact ih _ _ tn htn
        · rw [if_neg ha] at htn
          have hpos := groupTurns_length_pos ms (some (extractTextOnly parts, t)) []
            (Or.inl rfl)
          cases hrest : groupTurns ms (some (extractTextOnly parts, t)) [] with
          | nil => rw [hrest] at hpos; simp at hpos
          | cons r0 rs =>
            rw [hrest, List.dropLast_cons₂] at htn
            rcases List.mem_cons.mp htn with rfl | htn
            · exact attachTurn_isSome (by cases hacc : acc.isEmpty with
                | true => exact absurd hacc ha
                | false => rfl)
            · rw [← hrest] at htn
              exact ih _ _ tn htn
    | assistant =>
      rw [groupTurns_assistant_cons] at htn
      by_cases he : (extractTextOnly parts).isEmpty
      · rw [if_pos he] at htn
        exact ih _ _ tn htn
      · rw [if_neg he] at htn
        exact ih _ _ tn htn
    | system =>
      rw [groupTurns_system_cons] at htn
      exact ih _ _ tn htn

theorem groupTurns_eq_nil : ∀ (ms : List Message) (acc : List (Str × Nat)),
    (∀ m ∈ ms, m.role ≠ Role.user) → groupTurns ms none acc = [] := by
  intro ms
  induction ms with
  | nil => intro acc _; rfl
  | cons m ms ih =>
    intro acc h
    obtain ⟨r, t, parts⟩ := m
    cases r with
    | user =>
      exact absurd rfl (h _ (List.mem_cons_self _ _))
    | assistant =>
      rw [groupTurns_assistant_cons]
      have h' : ∀ m ∈ ms, m.role ≠ Role.user := fun m hm => h m (List.mem_cons_of_mem _ hm)
      by_cases he : (extractTextOnly parts).isEmpty
      · rw [if_pos he]; exact ih _ h'
      · rw [if_neg he]; exact ih _ h'
    | system =>
      rw [groupTurns_system_cons]
      exact ih _ (fun m hm => h m (List.mem_cons_of_mem _ hm))

theorem groupTurns_times_sublist : ∀ (ms : List Message) (cur : Option (Str × Nat))
    (acc : List (Str × Nat)),
    ((groupTurns ms cur acc).map Turn.userTime).Sublist
      ((cur.toList.map Prod.snd) ++
        ((ms.filter (fun m => m.role == Role.user)).map Message.created)) := by
  intro ms
  induction ms with
  | nil =>
    intro cur acc
    cases cur with
    | none => simp [groupTurns]
    | some u =>
      simp only [groupTurns, List.map_cons, List.map_nil, Option.toList_some,
        List.filter_nil, List.append_nil, attachTurn_userTime]
      exact List.Sublist.refl _
  | cons m ms ih =>
    intro cur acc
    obtain ⟨r, t, parts⟩ := m
    cases r with
    | user =>
      have hfil : (⟨Role.user, t, parts⟩ :: ms).filter (fun m => m.role == Role.user) =
          ⟨Role.user, t, parts⟩ :: ms.filter (fun m => m.role == Role.user) := by
        simp [List.filter_cons]
      rw [hfil]
      cases cur with
      | none =>
        rw [groupTurns_user_none]
        have h := ih (some (extractTextOnly parts, t)) []
        simp only [Option.toList_some, List.map_cons, List.map_nil, List.singleton_append,
          List.nil_append, List.map_cons] at h ⊢
        exact h
      | some u =>
        rw [groupTurns_user_some]
        by_cases ha : acc.isEmpty
        · rw [if_pos ha]
          have h := ih (some (extractTextOnly parts, t)) []
          simp only [Option.toList_some, List.map_cons, List.map_nil, List.singleton_append] at h ⊢
          exact h.cons _
        · rw [if_neg ha]
          have h := ih (some (extractTextOnly parts, t)) []
          simp only [Option.toList_some, List.map_cons, List.map_nil, List.singleton_append,
            attachTurn_userTime] at h ⊢
          exact h.cons₂ _
    | assistant =>
      have hfil : (⟨Role.assistant, t, parts⟩ :: ms).filter (fun m => m.role == Role.user) =
          ms.filter (fun m => m.role == Role.user) := by
        simp [List.filter_cons]
      rw [hfil, groupTurns_assistant_cons]
      by_cases he : (extractTextOnly parts).isEmpty
      · rw [if_pos he]; exact ih cur acc
      · rw [if_neg he]; exact ih cur _
    | system =>
      have hfil : (⟨Role.system, t, parts⟩ :: ms).filter (fun m => m.role == Role.user) =
          ms.filter (fun m => m.role == Role.user) := by
        simp [List.filter_cons]
      rw [hfil, groupTurns_system_cons]
      exact ih cur acc

theorem conv_filter_user (msgs : List Message) :
    (conversationOf msgs).filter (fun m => m.role == Role.user) =
      msgs.filter (fun m => m.role == Role.user) := by
  unfold conversationOf
  rw [List.filter_filter]
  apply List.filter_congr
  intro m _
  cases hm : m.role <;> simp [hm]

theorem userCount_conv (msgs : List Message) :
    userCount (conversationOf msgs) = userCount msgs := by
  unfold userCount
  rw [conv_filter_user]

/-- A history with two consecutive user messages and no assistant text. -/
def c2pair : List Message :=
  [mkTextMsg Role.user 1 "a".toList, mkTextMsg Role.user 2 "b".toList]

/-- C2 counterexample: the extractor does not emit one turn per user message.
For a history of two user messages with no assistant reply between them, the
interior turn (for the first user message) is dropped: only one turn is
produced, for the second user message. -/
theorem C2_extractor_counterexample :
    (extractTurns c2pair).length ≠ userCount c2pair ∧
      extractTurns c2pair = [⟨"b".toList, 2, none⟩] ∧ userCount c2pair = 2 :=
  ⟨by decide, by decide, by decide⟩

/-- C2 amended: for a time-ordered history, turns are produced in
non-decreasing userTime order, at most one per user message; the trailing
turn is emitted even without assistant text (so at least one turn exists
whenever a user message does, and none when no user message exists), but
every non-final emitted turn carries an assistant summary — an interior turn
that collected no non-empty assistant text is dropped, not emitted. -/
theorem C2_extractor_amended (msgs : List Message)
    (hsorted : List.Pairwise (fun a b => a.created ≤ b.created) msgs) :
    List.Pairwise (fun a b => a ≤ b) ((extractTurns msgs).map Turn.userTime) ∧
      (extractTurns msgs).length ≤ userCount msgs ∧
      (1 ≤ userCount msgs → 1 ≤ (extractTurns msgs).length) ∧
      (userCount msgs = 0 → extractTurns msgs = []) ∧
      (∀ tn ∈ (extractTurns msgs).dropLast, tn.assistant.isSome = true) := by
  refine ⟨?_, ?_, ?_, ?_, ?_⟩
  · have hsub := groupTurns_times_sublist (conversationOf msgs) none []
    simp only [Option.toList_none, List.map_nil, List.nil_append] at hsub
    rw [conv_filter_user] at hsub
    apply List.Pairwise.sublist hsub
    rw [List.pairwise_map]
    exact hsorted.filter _
  · have h := groupTurns_length_le (conversationOf msgs) none []
    rw [userCount_conv] at h
    simpa using h
  · intro hu
    apply groupTurns_length_pos
    right
    have hne : msgs.filter (fun m => m.role == Role.user) ≠ [] := by
      intro hnil
      have : userCount msgs = 0 := by
        unfold userCount
        rw [hnil]
        rfl
      omega
    obtain ⟨m, hm⟩ := List.exists_mem_of_ne_nil _ hne
    obtain ⟨hmm, hmp⟩ := List.mem_filter.mp hm
    have hrole : m.role = Role.user := by simpa using hmp
    refine ⟨m, ?_, hrole⟩
    exact List.mem_filter.mpr ⟨hmm, by simp [hrole]⟩
  · intro hu
    unfold extractTurns
    apply groupTurns_eq_nil
    intro m hm hrole
    have hmm := (List.mem_filter.mp hm).1
    have hnil : msgs.filter (fun m => m.role == Role.user) = [] := by
      have h0 : (msgs.filter (fun m => m.role == Role.user)).length = 0 := hu
      exact List.length_eq_zero.mp h0
    have hin : m ∈ msgs.filter (fun m => m.role == Role.user) :=
      List.mem_filter.mpr ⟨hmm, by simp [hrole]⟩
    rw [hnil] at hin
    simp at hin
  · exact groupTurns_dropLast_assistant _ _ _

/-- A history exercising the amended extractor claim: user, assistant, user. -/
def c2History : List Message :=
  [mkTextMsg Role.user 1 "a".toList, mkTextMsg Role.assistant 2 "x".toList,
    mkTextMsg Role.user 3 "b".toList]

theorem C2_extractor_amended_witness :
    List.Pairwise (fun a b => a ≤ b) ((extractTurns c2History).map Turn.userTime) ∧
      (extractTurns c2History).length ≤ userCount c2History ∧
      (1 ≤ userCount c2History → 1 ≤ (extractTurns c2History).length) ∧
      (userCount c2History = 0 → extractTurns c2History = []) ∧
      (∀ tn ∈ (extractTurns c2History).dropLast, tn.assistant.isSome = true) :=
  C2_extractor_amended c2History (by decide)

/-! ### Context formatter (formatContextForTitle and truncate in src/index.ts) -/

/-- Truncate text to a maximum length, appending an ellipsis when cut. -/
def truncateText (text : Str) (maxLength : Nat) : Str :=
  if text.length ≤ maxLength then text else text.take maxLength ++ "...".toList

/-- JS `turns.slice(-n)`: the tail of at most `n` turns (`slice(-0)` keeps
the whole array). -/
def sliceLast (l : List Turn) (n : Nat) : List Turn :=
  if n = 0 then l else l.drop (l.length - n)

/-- The assistant lines the formatter pushes for one turn. -/
def assistantLines (maxChars : Nat) : Option AssistantSummary → List Str
  | none => []
  | some a =>
    if a.first == a.last then
      [("Assistant: ".toList ++ truncateText a.first maxChars), []]
    else
      [("Assistant (initial): ".toList ++ truncateText a.first maxChars),
       ("Assistant (final): ".toList ++ truncateText a.last maxChars), []]

/-- The lines the formatter pushes for one turn. -/
def turnLines (maxChars : Nat) (turn : Turn) : List Str :=
  ("User: ".toList ++ truncateText turn.userText maxChars) :: [] ::
    assistantLines maxChars turn.assistant

/-- The formatter: tail selection, per-turn lines, joined with newlines. -/
def formatContextForTitle (turns : List Turn) (maxTurns maxChars : Nat) : Str :=
  List.intercalate ['\n'] ((sliceLast turns maxTurns).flatMap (turnLines maxChars))

/-- Number of output lines carrying the literal "User: " prefix. -/
def countUserLines (s : Str) : Nat :=
  ((splitOnChar '\n' s).filter (fun l => startsWith "User: ".toList l)).length

/-- A turn whose user text itself contains a newline and the marker. -/
def c6turn : Turn := ⟨"a\nUser: b".toList, 0, none⟩

theorem truncate_no_nl {t : Str} (mc : Nat) (h : '\n' ∉ t) : '\n' ∉ truncateText t mc := by
  unfold truncateText
  split
  · exact h
  · intro hmem
    rcases List.mem_append.mp hmem with hm | hm
    · exact h (List.take_subset mc t hm)
    · simp at hm

theorem assistantLines_some (mc : Nat) (a : AssistantSummary) :
    assistantLines mc (some a) =
      if a.first == a.last then
        [("Assistant: ".toList ++ truncateText a.first mc), []]
      else
        [("Assistant (initial): ".toList ++ truncateText a.first mc),
         ("Assistant (final): ".toList ++ truncateText a.last mc), []] := rfl

theorem turnLines_no_nl {mc : Nat} {t : Turn} (hu : '\n' ∉ t.userText)
    (ha : ∀ a, t.assistant = some a → '\n' ∉ a.first ∧ '\n' ∉ a.last) :
    ∀ l ∈ turnLines mc t, '\n' ∉ l := by
  intro l hl
  unfold turnLines at hl
  have husr : '\n' ∉ "User: ".toList ++ truncateText t.userText mc := by
    intro hmem
    rcases List.mem_append.mp hmem with hm | hm
    · revert hm; decide
    · exact truncate_no_nl mc hu hm
  rcases List.mem_cons.mp hl with rfl | hl
  · exact husr
  rcases List.mem_cons.mp hl with rfl | hl
  · simp
  cases hta : t.assistant with
  | none =>
    rw [hta] at hl
    simp [assistantLines] at hl
  | some a =>
    obtain ⟨hf, hla⟩ := ha a hta
    rw [hta, assistantLines_some] at hl
    by_cases hfl : (a.first == a.last) = true
    · rw [if_pos hfl] at hl
      rcases List.mem_cons.mp hl with rfl | hl
      · intro hmem
        rcases List.mem_append.mp hmem with hm | hm
        · revert hm; decide
        · exact truncate_no_nl mc hf hm
      · rcases List.mem_cons.mp hl with rfl | hl
        · simp
        · simp at hl
    · rw [if_neg hfl] at hl
      rcases List.mem_cons.mp hl with rfl | hl
      · intro hmem
        rcases List.mem_append.mp hmem with hm | hm
        · revert hm; decide
        · exact truncate_no_nl mc hf hm
      · rcases List.mem_cons.mp hl with rfl | hl
        · intro hmem
          rcases List.mem_append.mp hmem with hm | hm
          · revert hm; decide
          · exact truncate_no_nl mc hla hm
        · rcases List.mem_cons.mp hl with rfl | hl
          · simp
          · simp at hl

theorem startsWith_user_assistant1 (x : Str) :
    startsWith "User: ".toList ("Assistant: ".toList ++ x) = false := rfl

theorem startsWith_user_assistant2 (x : Str) :
    startsWith "User: ".toList ("Assistant (initial): ".toList ++ x) = false := rfl

theorem startsWith_user_assistant3 (x : Str) :
    startsWith "User: ".toList ("Assistant (final): ".toList ++ x) = false := rfl

theorem startsWith_user_nil : startsWith "User: ".toList [] = false := rfl

theorem startsWith_user_userline (x : Str) :
    startsWith "User: ".toList ("User: ".toList ++ x) = true := startsWith_append_self _ _

theorem countUser_turnLines (mc : Nat) (t : Turn) :
    ((turnLines mc t).filter (fun l => startsWith "User: ".toList l)).length = 1 := by
  unfold turnLines
  cases t.assistant with
  | none =>
    simp only [assistantLines, List.filter_cons, startsWith_user_userline,
      startsWith_user_nil, List.filter_nil]
    simp
  | some a =>
    rw [assistantLines_some]
    by_cases hfl : (a.first == a.last) = true
    · rw [if_pos hfl]
      simp only [List.filter_cons, startsWith_user_userline, startsWith_user_nil,
        startsWith_user_assistant1, List.filter_nil]
      simp
    · rw [if_neg hfl]
      simp only [List.filter_cons, startsWith_user_userline, startsWith_user_nil,
        startsWith_user_assistant2, startsWith_user_assistant3, List.filter_nil]
      simp

theorem countUser_flatMap (mc : Nat) : ∀ ts : List Turn,
    ((ts.flatMap (turnLines mc)).filter (fun l => startsWith "User: ".toList l)).length =
      ts.length := by
  intro ts
  induction ts with
  | nil => rfl
  | cons t ts ih =>
    rw [List.flatMap_cons, List.filter_append, List.length_append, ih, countUser_turnLines,
      List.length_cons]
    omega

theorem sliceLast_subset (l : List Turn) (n : Nat) : ∀ t ∈ sliceLast l n, t ∈ l := by
  intro t ht
  unfold sliceLast at ht
  split at ht
  · exact ht
  · exact List.drop_subset _ l ht

theorem sliceLast_length_le (l : List Turn) {n : Nat} (hn : 0 < n) :
    (sliceLast l n).length ≤ n := by
  unfold sliceLast
  rw [if_neg (by omega), List.length_drop]
  omega

/-- C6 counterexample: the formatter output is not bounded by maxTurns
occurrences of the "User: " line prefix for every list of turns: a user text
containing a newline followed by the marker yields two such lines from a
single selected turn (maxTurns = 1). -/
theorem C6_formatter_counterexample :
    ¬ countUserLines (formatContextForTitle [c6turn] 1 100) ≤ 1 ∧
      countUserLines (formatContextForTitle [c6turn] 1 100) = 2 :=
  ⟨by decide, by decide⟩

/-- C6 amended: when no message text contains a newline, the output has at
most maxTurns lines with the literal "User: " prefix; the formatter selects
the chronological tail of at most maxTurns turns and truncates each text to
maxCharsPerMessage characters plus an ellipsis marker when longer. -/
theorem C6_formatter_amended (turns : List Turn) (maxTurns maxChars : Nat)
    (hmt : 0 < maxTurns) (hmc : 0 < maxChars)
    (hnl : ∀ t ∈ turns, '\n' ∉ t.userText ∧
      ∀ a, t.assistant = some a → '\n' ∉ a.first ∧ '\n' ∉ a.last) :
    countUserLines (formatContextForTitle turns maxTurns maxChars) ≤ maxTurns ∧
      sliceLast turns maxTurns = turns.drop (turns.length - maxTurns) ∧
      (∀ text : Str, (text.length ≤ maxChars → truncateText text maxChars = text) ∧
        (maxChars < text.length →
          truncateText text maxChars = text.take maxChars ++ "...".toList ∧
          (truncateText text maxChars).length = maxChars + 3)) := by
  refine ⟨?_, ?_, ?_⟩
  · cases hsl : sliceLast turns maxTurns with
    | nil =>
      have h0 : countUserLines (formatContextForTitle turns maxTurns maxChars) = 0 := by
        unfold formatContextForTitle countUserLines
        rw [hsl]
        rfl
      omega
    | cons t0 ts0 =>
      have hlines_ne : (t0 :: ts0).flatMap (turnLines maxChars) ≠ [] := by
        rw [List.flatMap_cons]
        unfold turnLines
        simp
      have hfree : ∀ l ∈ (t0 :: ts0).flatMap (turnLines maxChars), '\n' ∉ l := by
        intro l hl
        obtain ⟨t, ht, hlt⟩ := List.mem_flatMap.mp hl
        have htin : t ∈ turns := sliceLast_subset turns maxTurns t (hsl ▸ ht)
        obtain ⟨hu, ha⟩ := hnl t htin
        exact turnLines_no_nl hu ha l hlt
      have hform : formatContextForTitle turns maxTurns maxChars =
          List.intercalate ['\n'] ((t0 :: ts0).flatMap (turnLines maxChars)) := by
        unfold formatContextForTitle
        rw [hsl]
      have hsplit : splitOnChar '\n'
          (List.intercalate ['\n'] ((t0 :: ts0).flatMap (turnLines maxChars))) =
          (t0 :: ts0).flatMap (turnLines maxChars) :=
        splitOnChar_intercalate '\n' _ hlines_ne hfree
      unfold countUserLines
      rw [hform, hsplit, countUser_flatMap]
      calc (t0 :: ts0).length = (sliceLast turns maxTurns).length := by rw [hsl]
        _ ≤ maxTurns := sliceLast_length_le turns hmt
  · unfold sliceLast
    rw [if_neg (by omega)]
  · intro text
    constructor
    · intro h
      unfold truncateText
      rw [if_pos h]
    · intro h
      unfold truncateText
      rw [if_neg (by omega)]
      refine ⟨rfl, ?_⟩
      rw [List.length_append, List.length_take]
      have hm : min maxChars text.length = maxChars := by omega
      rw [hm]
      rfl

theorem C6_formatter_amended_witness :
    countUserLines (formatContextForTitle [⟨"hi".toList, 0, none⟩] 2 5) ≤ 2 ∧
      sliceLast [⟨"hi".toList, 0, none⟩] 2 =
        ([⟨"hi".toList, 0, none⟩] : List Turn).drop
          (([⟨"hi".toList, 0, none⟩] : List Turn).length - 2) ∧
      (∀ text : Str, (text.length ≤ 5 → truncateText text 5 = text) ∧
        (5 < text.length → truncateText text 5 = text.take 5 ++ "...".toList ∧
          (truncateText text 5).length = 5 + 3)) :=
  C6_formatter_amended [⟨"hi".toList, 0, none⟩] 2 5 (by decide) (by decide) (by decide)

/-! ### Model selector (selectModel in lib/model-selector.ts)

The configured string is split on '/' and accepted only with exactly two
segments; otherwise selection proceeds to the fallback walk over the fixed
priority list.  Authentication and resolution are external collaborators,
modelled as boolean oracles.  The result's first component is `none` exactly
when the code throws its "no usable model" error; the second component is
the trace of attempted resolutions, in order. -/

/-- Fallback model per provider, copied from FALLBACK_MODELS. -/
def FALLBACK_MODELS : List (Str × Str) :=
  [("openai".toList, "gpt-5-mini".toList),
   ("anthropic".toList, "claude-haiku-4-5".toList),
   ("google".toList, "gemini-2.5-flash".toList),
   ("deepseek".toList, "deepseek-chat".toList),
   ("xai".toList, "grok-4-fast".toList),
   ("alibaba".toList, "qwen3-coder-flash".toList),
   ("zai".toList, "glm-4.5-flash".toList),
   ("opencode".toList, "big-pickle".toList)]

/-- Provider priority order, copied from PROVIDER_PRIORITY. -/
def PROVIDER_PRIORITY : List Str :=
  ["openai".toList, "anthropic".toList, "google".toList, "deepseek".toList,
   "xai".toList, "alibaba".toList, "zai".toList, "opencode".toList]

/-- The fallback model id configured for a provider, if any. -/
def fallbackModelOf (p : Str) : Option Str := List.lookup p FALLBACK_MODELS

inductive SelSource
  | config
  | fallback
deriving DecidableEq

structure SelResult where
  providerID : Str
  modelID : Str
  source : SelSource
  failedModel : Option (Str × Str)
deriving DecidableEq

/-- Parse a configured model string: the code accepts exactly two segments. -/
def parseConfigModel (cm : Str) : Option (Str × Str) :=
  match splitOnChar '/' cm with
  | [p, m] => some (p, m)
  | _ => none

/-- Fallback loop: walk the priority list in order; skip providers that are
not authenticated or have no fallback model; attempt each remaining candidate
once; the first success stops the walk. -/
def tryFallback (auth : Str → Bool) (resolve : Str → Str → Bool) :
    List Str → Option (Str × Str) × List (Str × Str)
  | [] => (none, [])
  | p :: ps =>
    if auth p then
      match fallbackModelOf p with
      | some m =>
        if resolve p m then (some (p, m), [(p, m)])
        else ((tryFallback auth resolve ps).1, (p, m) :: (tryFallback auth resolve ps).2)
      | none => tryFallback auth resolve ps
    else tryFallback auth resolve ps

/-- Package a fallback outcome as the selector result. -/
def mkFallbackResult (failed : Option (Str × Str))
    (r : Option (Str × Str) × List (Str × Str)) : Option SelResult × List (Str × Str) :=
  match r with
  | (some (p, m), tr) => (some ⟨p, m, SelSource.fallback, failed⟩, tr)
  | (none, tr) => (none, tr)

/-- The model selector, translated from selectModel in lib/model-selector.ts. -/
def selectModel (auth : Str → Bool) (resolve : Str → Str → Bool)
    (configModel : Option Str) : Option SelResult × List (Str × Str) :=
  match configModel with
  | none => mkFallbackResult none (tryFallback auth resolve PROVIDER_PRIORITY)
  | some cm =>
    match parseConfigModel cm with
    | none => mkFallbackResult none (tryFallback auth resolve PROVIDER_PRIORITY)
    | some (p0, m0) =>
      if resolve p0 m0 then (some ⟨p0, m0, SelSource.config, none⟩, [(p0, m0)])
      else
        ((mkFallbackResult (some (p0, m0)) (tryFallback auth resolve PROVIDER_PRIORITY)).1,
          (p0, m0) :: (mkFallbackResult (some (p0, m0))
            (tryFallback auth resolve PROVIDER_PRIORITY)).2)

/-- A provider is eligible for fallback when authenticated and configured. -/
def eligible (auth : Str → Bool) (p : Str) : Bool :=
  auth p && (fallbackModelOf p).isSome

/-- The fallback model id of a provider (meaningful on eligible providers). -/
def fbModel (p : Str) : Str := (fallbackModelOf p).getD []

/-- Does the fallback resolution of this candidate fail? -/
def fbFails (resolve : Str → Str → Bool) (p : Str) : Bool := !(resolve p (fbModel p))

/-- The eligible candidates, in priority order. -/
def eligibleList (auth : Str → Bool) : List Str :=
  PROVIDER_PRIORITY.filter (eligible auth)

/-- Did the configured model string parse and resolve? -/
def configSucceeds (resolve : Str → Str → Bool) : Option Str → Prop
  | none => False
  | some cm => ∃ pm, parseConfigModel cm = some pm ∧ resolve pm.1 pm.2 = true

theorem tryFallback_cons (auth : Str → Bool) (resolve : Str → Str → Bool)
    (p : Str) (ps : List Str) :
    tryFallback auth resolve (p :: ps) =
      if auth p then
        match fallbackModelOf p with
        | some m =>
          if resolve p m then (some (p, m), [(p, m)])
          else ((tryFallback auth resolve ps).1, (p, m) :: (tryFallback auth resolve ps).2)
        | none => tryFallback auth resolve ps
      else tryFallback auth resolve ps := rfl

/-- Characterization of the fallback walk: the attempts are exactly the
eligible candidates up to and including the first success, and the outcome
is that first success, if any. -/
theorem tryFallback_eq (auth : Str → Bool) (resolve : Str → Str → Bool) :
    ∀ L : List Str,
      tryFallback auth resolve L =
        (((L.filter (eligible auth)).dropWhile (fbFails resolve)).head?.map
            (fun p => (p, fbModel p)),
          (((L.filter (eligible auth)).takeWhile (fbFails resolve)) ++
            ((L.filter (eligible auth)).dropWhile (fbFails resolve)).take 1).map
            (fun p => (p, fbModel p))) := by
  intro L
  induction L with
  | nil => rfl
  | cons p ps ih =>
    rw [tryFallback_cons]
    by_cases hauth : auth p = true
    · rw [if_pos hauth]
      split
      · rename_i m hfb
        have helig : eligible auth p = true := by simp [eligible, hauth, hfb]
        have hfbm : fbModel p = m := by rw [fbModel, hfb]; rfl
        rw [List.filter_cons, if_pos helig]
        by_cases hres : resolve p m = true
        · have hff : fbFails resolve p = false := by simp [fbFails, hfbm, hres]
          rw [List.dropWhile_cons_of_neg (by simp [hff]),
            List.takeWhile_cons_of_neg (by simp [hff]), if_pos hres]
          simp [hfbm]
        · have hff : fbFails resolve p = true := by
            simp only [fbFails, hfbm]
            simp [eq_false_of_ne_true hres]
          rw [List.dropWhile_cons_of_pos hff, List.takeWhile_cons_of_pos hff,
            if_neg hres, ih]
          simp [hfbm]
      · rename_i hfb
        have helig : eligible auth p = false := by simp [eligible, hfb]
        rw [List.filter_cons, if_neg (by simp [helig]), ih]
    · rw [if_neg hauth]
      have helig : eligible auth p = false := by
        simp [eligible, eq_false_of_ne_true hauth]
      rw [List.filter_cons, if_neg (by simp [helig]), ih]

theorem tryFallback_fst (auth : Str → Bool) (resolve : Str → Str → Bool) (L : List Str) :
    (tryFallback auth resolve L).1 =
      ((L.filter (eligible auth)).dropWhile (fbFails resolve)).head?.map
        (fun p => (p, fbModel p)) := by
  rw [tryFallback_eq]

theorem tryFallback_snd (auth : Str → Bool) (resolve : Str → Str → Bool) (L : List Str) :
    (tryFallback auth resolve L).2 =
      (((L.filter (eligible auth)).takeWhile (fbFails resolve)) ++
        ((L.filter (eligible auth)).dropWhile (fbFails resolve)).take 1).map
        (fun p => (p, fbModel p)) := by
  rw [tryFallback_eq]

theorem mkFallbackResult_fst (failed : Option (Str × Str))
    (r : Option (Str × Str) × List (Str × Str)) :
    (mkFallbackResult failed r).1 =
      r.1.map (fun pm => ⟨pm.1, pm.2, SelSource.fallback, failed⟩) := by
  rcases r with ⟨o, tr⟩
  cases o with
  | none => rfl
  | some pm =>
    rcases pm with ⟨p, m⟩
    rfl

theorem tryFallback_fst_none_iff (auth : Str → Bool) (resolve : Str → Str → Bool)
    (L : List Str) :
    (tryFallback auth resolve L).1 = none ↔
      ∀ p ∈ L, auth p = false ∨ fallbackModelOf p = none ∨
        resolve p (fbModel p) = false := by
  rw [tryFallback_fst]
  constructor
  · intro h p hp
    have h0 : ((L.filter (eligible auth)).dropWhile (fbFails resolve)).head? = none := by
      cases hh : ((L.filter (eligible auth)).dropWhile (fbFails resolve)).head? with
      | none => rfl
      | some a => rw [hh] at h; simp at h
    have hnil : (L.filter (eligible auth)).dropWhile (fbFails resolve) = [] := by
      cases hd : (L.filter (eligible auth)).dropWhile (fbFails resolve) with
      | nil => rfl
      | cons a as => rw [hd] at h0; simp at h0
    by_cases hauth : auth p = true
    · cases hfb : fallbackModelOf p with
      | none => exact Or.inr (Or.inl rfl)
      | some m =>
        right; right
        have hpe : p ∈ L.filter (eligible auth) :=
          List.mem_filter.mpr ⟨hp, by simp [eligible, hauth, hfb]⟩
        have hall := List.dropWhile_eq_nil_iff.mp hnil p hpe
        simpa [fbFails] using hall
    · exact Or.inl (eq_false_of_ne_true hauth)
  · intro h
    have hnil : (L.filter (eligible auth)).dropWhile (fbFails resolve) = [] := by
      rw [List.dropWhile_eq_nil_iff]
      intro x hx
      obtain ⟨hxL, hxe⟩ := List.mem_filter.mp hx
      rcases h x hxL with ha | hfb | hres
      · simp [eligible, ha] at hxe
      · simp [eligible, hfb] at hxe
      · simp [fbFails, hres]
    rw [hnil]
    rfl

theorem selectModel_no_config (auth : Str → Bool) (resolve : Str → Str → Bool) :
    selectModel auth resolve none =
      mkFallbackResult none (tryFallback auth resolve PROVIDER_PRIORITY) := rfl

theorem selectModel_parse_none {cm : Str} (auth : Str → Bool) (resolve : Str → Str → Bool)
    (hparse : parseConfigModel cm = none) :
    selectModel auth resolve (some cm) =
      mkFallbackResult none (tryFallback auth resolve PROVIDER_PRIORITY) := by
  simp [selectModel, hparse]

theorem selectModel_config_ok {cm p0 m0 : Str} (auth : Str → Bool) (resolve : Str → Str → Bool)
    (hparse : parseConfigModel cm = some (p0, m0)) (hres : resolve p0 m0 = true) :
    selectModel auth resolve (some cm) =
      (some ⟨p0, m0, SelSource.config, none⟩, [(p0, m0)]) := by
  simp [selectModel, hparse, hres]

theorem selectModel_config_fail {cm p0 m0 : Str} (auth : Str → Bool) (resolve : Str → Str → Bool)
    (hparse : parseConfigModel cm = some (p0, m0)) (hres : resolve p0 m0 = false) :
    selectModel auth resolve (some cm) =
      ((mkFallbackResult (some (p0, m0)) (tryFallback auth resolve PROVIDER_PRIORITY)).1,
        (p0, m0) :: (mkFallbackResult (some (p0, m0))
          (tryFallback auth resolve PROVIDER_PRIORITY)).2) := by
  simp [selectModel, hparse, hres]

/-- C4: with no authenticated provider at all (and resolution only possible
for authenticated providers), selection raises the terminal "no usable
model" condition; and that error is raised exactly when the configured model
is absent, malformed or failed AND every fallback candidate is skipped
(unauthenticated or without a fallback model) or fails resolution. -/
theorem C4_selector_exhaustion (auth : Str → Bool) (resolve : Str → Str → Bool)
    (cfg : Option Str) (hlink : ∀ p m, resolve p m = true → auth p = true) :
    ((∀ p, auth p = false) → (selectModel auth resolve cfg).1 = none) ∧
      ((selectModel auth resolve cfg).1 = none ↔
        (¬ configSucceeds resolve cfg ∧
          ∀ p ∈ PROVIDER_PRIORITY, auth p = false ∨ fallbackModelOf p = none ∨
            resolve p (fbModel p) = false)) := by
  have hiff : (selectModel auth resolve cfg).1 = none ↔
      (¬ configSucceeds resolve cfg ∧
        ∀ p ∈ PROVIDER_PRIORITY, auth p = false ∨ fallbackModelOf p = none ∨
          resolve p (fbModel p) = false) := by
    cases cfg with
    | none =>
      rw [selectModel_no_config, mkFallbackResult_fst]
      constructor
      · intro h
        refine ⟨by intro hcs; exact hcs, ?_⟩
        apply (tryFallback_fst_none_iff auth resolve _).mp
        cases ho : (tryFallback auth resolve PROVIDER_PRIORITY).1 with
        | none => rfl
        | some pm => rw [ho] at h; simp at h
      · rintro ⟨-, hall⟩
        rw [(tryFallback_fst_none_iff auth resolve _).mpr hall]
        rfl
    | some cm =>
      cases hparse : parseConfigModel cm with
      | none =>
        rw [selectModel_parse_none auth resolve hparse, mkFallbackResult_fst]
        constructor
        · intro h
          constructor
          · rintro ⟨pm, hpm, -⟩
            rw [hparse] at hpm
            simp at hpm
          · apply (tryFallback_fst_none_iff auth resolve _).mp
            cases ho : (tryFallback auth resolve PROVIDER_PRIORITY).1 with
            | none => rfl
            | some pm => rw [ho] at h; simp at h
        · rintro ⟨-, hall⟩
          rw [(tryFallback_fst_none_iff auth resolve _).mpr hall]
          rfl
      | some pm =>
        rcases pm with ⟨p0, m0⟩
        by_cases hres : resolve p0 m0 = true
        · rw [selectModel_config_ok auth resolve hparse hres]
          constructor
          · intro h
            simp at h
          · rintro ⟨hnc, -⟩
            exact absurd ⟨(p0, m0), hparse, hres⟩ hnc
        · have hres' : resolve p0 m0 = false := eq_false_of_ne_true hres
          rw [selectModel_config_fail auth resolve hparse hres']
          dsimp only
          rw [mkFallbackResult_fst]
          constructor
          · intro h
            constructor
            · rintro ⟨pm', hpm', hr'⟩
              rw [hparse] at hpm'
              have : pm' = (p0, m0) := by simpa using hpm'.symm
              subst this
              rw [hres'] at hr'
              simp at hr'
            · apply (tryFallback_fst_none_iff auth resolve _).mp
              cases ho : (tryFallback auth resolve PROVIDER_PRIORITY).1 with
              | none => rfl
              | some pm2 => rw [ho] at h; simp at h
          · rintro ⟨-, hall⟩
            rw [(tryFallback_fst_none_iff auth resolve _).mpr hall]
            rfl
  refine ⟨?_, hiff⟩
  intro hno
  apply hiff.mpr
  refine ⟨?_, fun p _ => Or.inl (hno p)⟩
  intro hcs
  cases cfg with
  | none => exact hcs
  | some cm =>
    obtain ⟨pm, hpm, hr⟩ := hcs
    have hp := hlink pm.1 pm.2 hr
    rw [hno pm.1] at hp
    simp at hp

theorem C4_selector_exhaustion_witness :
    (selectModel (fun _ => false) (fun _ _ => false) none).1 = none :=
  (C4_selector_exhaustion (fun _ => false) (fun _ _ => false) none
    (fun p m h => absurd h (by simp))).1 (fun p => rfl)

/-- C5: the fallback walk attempts exactly the eligible candidates (in the
fixed priority order) up to and including the first success: the trace is the
failing eligible prefix plus at most one success, each candidate is attempted
at most once, everything attempted before the winner failed, nothing after
the winner is attempted, a success exists whenever any eligible candidate
resolves (single failures never abort), and a fallback win surfaces as a
selector result with source = fallback. -/
theorem C5_fallback_sequential (auth : Str → Bool) (resolve : Str → Str → Bool) :
    (tryFallback auth resolve PROVIDER_PRIORITY).2 =
        ((eligibleList auth).takeWhile (fbFails resolve) ++
          ((eligibleList auth).dropWhile (fbFails resolve)).take 1).map
          (fun p => (p, fbModel p)) ∧
      ((tryFallback auth resolve PROVIDER_PRIORITY).2.map Prod.fst).Sublist
          PROVIDER_PRIORITY ∧
      (tryFallback auth resolve PROVIDER_PRIORITY).2.Nodup ∧
      (∀ p m, (tryFallback auth resolve PROVIDER_PRIORITY).1 = some (p, m) →
        resolve p m = true ∧ m = fbModel p ∧
        (tryFallback auth resolve PROVIDER_PRIORITY).2 =
          ((eligibleList auth).takeWhile (fbFails resolve)).map (fun q => (q, fbModel q))
            ++ [(p, m)] ∧
        ∀ q ∈ (eligibleList auth).takeWhile (fbFails resolve),
          resolve q (fbModel q) = false) ∧
      ((∃ p ∈ eligibleList auth, resolve p (fbModel p) = true) →
        (tryFallback auth resolve PROVIDER_PRIORITY).1 ≠ none) ∧
      (∀ (cfg : Option Str) (p m : Str), ¬ configSucceeds resolve cfg →
        (tryFallback auth resolve PROVIDER_PRIORITY).1 = some (p, m) →
        ∃ fm, (selectModel auth resolve cfg).1 = some ⟨p, m, SelSource.fallback, fm⟩) := by
  have hE : eligibleList auth = PROVIDER_PRIORITY.filter (eligible auth) := rfl
  have hsnd := tryFallback_snd auth resolve PROVIDER_PRIORITY
  have hfst := tryFallback_fst auth resolve PROVIDER_PRIORITY
  rw [← hE] at hsnd hfst
  have hxs_sub : ((eligibleList auth).takeWhile (fbFails resolve) ++
      ((eligibleList auth).dropWhile (fbFails resolve)).take 1).Sublist PROVIDER_PRIORITY := by
    have h1 : (((eligibleList auth).dropWhile (fbFails resolve)).take 1).Sublist
        ((eligibleList auth).dropWhile (fbFails resolve)) := List.take_sublist 1 _
    have h2 := h1.append_left ((eligibleList auth).takeWhile (fbFails resolve))
    rw [List.takeWhile_append_dropWhile] at h2
    exact h2.trans (hE ▸ List.filter_sublist PROVIDER_PRIORITY)
  refine ⟨by rw [hsnd], ?_, ?_, ?_, ?_, ?_⟩
  · rw [hsnd, List.map_map]
    have hcomp : (Prod.fst ∘ fun p => (p, fbModel p)) = fun p : Str => p := rfl
    rw [hcomp, List.map_id']
    exact hxs_sub
  · rw [hsnd]
    apply List.Nodup.map
    · intro a b hab
      exact congrArg Prod.fst hab
    · exact hxs_sub.nodup (by decide)
  · intro p m h1
    rw [hfst] at h1
    cases hh : ((eligibleList auth).dropWhile (fbFails resolve)).head? with
    | none => rw [hh] at h1; simp at h1
    | some a =>
      rw [hh] at h1
      simp only [Option.map_some', Option.some.injEq, Prod.mk.injEq] at h1
      obtain ⟨hap, hm⟩ := h1
      have hff : fbFails resolve a = false := head?_dropWhile_false hh
      have hres : resolve a (fbModel a) = true := by
        simpa [fbFails] using hff
      rw [hap] at hm hres hh
      refine ⟨by rw [← hm]; exact hres, hm.symm, ?_, ?_⟩
      · rw [hsnd]
        cases hd : (eligibleList auth).dropWhile (fbFails resolve) with
        | nil => rw [hd] at hh; simp at hh
        | cons a0 rest =>
          rw [hd] at hh
          have ha0 : a0 = p := by simpa using hh
          rw [ha0, show (p :: rest).take 1 = [p] from rfl, List.map_append]
          simp [hm]
      · intro q hq
        have hqf := List.mem_takeWhile_imp hq
        simpa [fbFails] using hqf
  · rintro ⟨p, hp, hres⟩ hnone
    rw [hfst] at hnone
    have h0 : ((eligibleList auth).dropWhile (fbFails resolve)).head? = none := by
      cases hh : ((eligibleList auth).dropWhile (fbFails resolve)).head? with
      | none => rfl
      | some a => rw [hh] at hnone; simp at hnone
    have hnil : (eligibleList auth).dropWhile (fbFails resolve) = [] := by
      cases hd : (eligibleList auth).dropWhile (fbFails resolve) with
      | nil => rfl
      | cons a rest => rw [hd] at h0; simp at h0
    have hfail := List.dropWhile_eq_nil_iff.mp hnil p hp
    simp [fbFails, hres] at hfail
  · intro cfg p m hnc h1
    cases cfg with
    | none =>
      refine ⟨none, ?_⟩
      rw [selectModel_no_config, mkFallbackResult_fst, h1]
      rfl
    | some cm =>
      cases hparse : parseConfigModel cm with
      | none =>
        refine ⟨none, ?_⟩
        rw [selectModel_parse_none auth resolve hparse, mkFallbackResult_fst, h1]
        rfl
      | some pm0 =>
        rcases pm0 with ⟨p0, m0⟩
        have hres0 : resolve p0 m0 = false := by
          cases hr : resolve p0 m0 with
          | true => exact absurd ⟨(p0, m0), hparse, hr⟩ hnc
          | false => rfl
        refine ⟨some (p0, m0), ?_⟩
        rw [selectModel_config_fail auth resolve hparse hres0]
        dsimp only
        rw [mkFallbackResult_fst, h1]
        rfl

theorem C5_fallback_sequential_witness :
    (tryFallback (fun p => p == "google".toList) (fun _ _ => true) PROVIDER_PRIORITY).1 ≠
      none :=
  (C5_fallback_sequential (fun p => p == "google".toList) (fun _ _ => true)).2.2.2.2.1
    ⟨"google".toList, by decide, by decide⟩

/-- The three-segment configured string from the claim. -/
def nvidiaConfig : Str := "nvidia/meta/llama-3.3-70b-instruct".toList

/-- C1: the code requires exactly two '/'-separated segments, so the
three-segment configured string is treated as malformed: even with nvidia
authenticated and a resolver that would succeed on every request, no
resolution is attempted (empty trace) and selection throws "no usable
model"; a two-segment string parses normally. -/
theorem C1_three_segment_config_rejected :
    parseConfigModel nvidiaConfig = none ∧
      parseConfigModel ("openai/gpt-5-mini".toList) =
        some ("openai".toList, "gpt-5-mini".toList) ∧
      (selectModel (fun p => p == "nvidia".toList) (fun _ _ => true)
        (some nvidiaConfig)).1 = none ∧
      (selectModel (fun p => p == "nvidia".toList) (fun _ _ => true)
        (some nvidiaConfig)).2 = [] :=
  ⟨by decide, by decide, by decide, by decide⟩

/-! ### Update coordinator (the idle-event handler in src/index.ts) -/

/-- Result of one idle event: the updated counter table and whether the
title-update pipeline is dispatched. -/
structure IdleOutcome where
  table : Str → Nat
  runsPipeline : Bool

/-- One idle event: sub-sessions are skipped before any counter change;
otherwise the session's counter (default 0 when absent) is incremented and
the pipeline runs exactly when the new value is divisible by the threshold. -/
def onIdle (threshold : Nat) (isSubagent : Bool) (tbl : Str → Nat) (sid : Str) :
    IdleOutcome :=
  if isSubagent then ⟨tbl, false⟩
  else
    ⟨fun t => if t = sid then tbl sid + 1 else tbl t, (tbl sid + 1) % threshold == 0⟩

/-- n idle events for one session starting from the empty table; returns the
final table and the list of pipeline-dispatch flags in order. -/
def idleRun (threshold : Nat) (sid : Str) : Nat → (Str → Nat) × List Bool
  | 0 => ((fun _ => 0), [])
  | n + 1 =>
    ((onIdle threshold false (idleRun threshold sid n).1 sid).table,
      (idleRun threshold sid n).2 ++
        [(onIdle threshold false (idleRun threshold sid n).1 sid).runsPipeline])

/-- C3: an idle event for a non-sub-session increments that session's counter
by one (starting from 0 when absent) and dispatches the pipeline exactly when
the incremented counter is a multiple of the positive threshold; with
threshold 1 every idle dispatches, and with threshold 3 three consecutive
idles dispatch exactly once, on the third. -/
theorem C3_threshold_policy (threshold : Nat) (tbl : Str → Nat) (sid : Str)
    (hpos : 0 < threshold) :
    (onIdle threshold false tbl sid).table sid = tbl sid + 1 ∧
      ((onIdle threshold false tbl sid).runsPipeline = true ↔
        threshold ∣ (tbl sid + 1)) ∧
      (onIdle 1 false tbl sid).runsPipeline = true ∧
      (idleRun 3 sid 3).2 = [false, false, true] := by
  refine ⟨?_, ?_, ?_, ?_⟩
  · unfold onIdle
    rw [if_neg (by simp)]
    simp
  · unfold onIdle
    rw [if_neg (by simp)]
    dsimp only
    rw [beq_iff_eq]
    exact Nat.dvd_iff_mod_eq_zero.symm
  · unfold onIdle
    simp [Nat.mod_one]
  · simp [idleRun, onIdle]

theorem C3_threshold_policy_witness :
    (onIdle 3 false (fun _ => 2) "s".toList).table "s".toList =
        (fun _ : Str => 2) "s".toList + 1 ∧
      ((onIdle 3 false (fun _ => 2) "s".toList).runsPipeline = true ↔
        3 ∣ ((fun _ : Str => 2) "s".toList + 1)) ∧
      (onIdle 1 false (fun _ => 2) "s".toList).runsPipeline = true ∧
      (idleRun 3 "s".toList 3).2 = [false, false, true] :=
  C3_threshold_policy 3 (fun _ => 2) "s".toList (by decide)

/-- C10: an idle event touches at most the triggering session's counter:
every other session's counter is unchanged, and on the sub-session path the
whole table is unchanged because the increment happens only after the
sub-session check. -/
theorem C10_counter_frame (threshold : Nat) (isSub : Bool) (tbl : Str → Nat)
    (s t : Str) :
    (t ≠ s → (onIdle threshold isSub tbl s).table t = tbl t) ∧
      (onIdle threshold true tbl s).table = tbl := by
  constructor
  · intro hts
    unfold onIdle
    by_cases hsub : isSub = true
    · rw [if_pos hsub]
    · rw [if_neg hsub]
      dsimp only
      rw [if_neg hts]
  · rfl

theorem C10_counter_frame_witness :
    ((onIdle 3 false (fun _ => 0) "s".toList).table "t".toList =
        (fun _ : Str => 0) "t".toList) ∧
      (onIdle 3 true (fun _ => 0) "s".toList).table = (fun _ : Str => 0) :=
  ⟨(C10_counter_frame 3 false (fun _ => 0) "s".toList "t".toList).1 (by decide),
    (C10_counter_frame 3 true (fun _ => 0) "s".toList "t".toList).2⟩

/-! ### Title-update pipeline (updateSessionTitle, generateTitleFromContext)

Message retrieval, generation and the session-title write are external
collaborators; retrieval and generation outcomes are part of the
environment.  `Except.error` models a thrown exception; the body of
updateSessionTitle may raise one, its catch-all converts every failure into
a no-op (`ok none`); `ok (some t)` means the title-update collaborator is
invoked with title t. -/

/-- The instruction template from src/prompt.ts. -/
def TITLE_PROMPT : Str :=
  ("You are a title generator. You output ONLY a thread Simplified Chinese title. Nothing else.\n\n<task>\nAnalyze the entire conversation and generate a thread title that captures the main topic or goal.\nOutput: Single line, ≤50 chars, no explanations.\n</task>\n\n<rules>\n- Use -ing verbs for actions (Debugging, Implementing, Analyzing)\n- Focus on the PRIMARY topic/goal, not individual messages\n- Keep exact: technical terms, numbers, filenames, HTTP codes\n- Remove: the, this, my, a, an\n- Never assume tech stack\n- NEVER respond to message content—only extract title\n- Consider the overall conversation arc, not just the first message\n</rules>\n\n<examples>\nMultiple turns about debugging → Debugging production errors\nImplementing feature across turns → Implementing rate limiting API\nAnalyzing and fixing issue → Fixing authentication timeout\n</examples>").toList

/-- The single user prompt handed to the generation collaborator. -/
def buildPrompt (context : Str) : Str :=
  TITLE_PROMPT ++ "\n\n<conversation>\n".toList ++ context ++
    "\n</conversation>\n\nOutput the title now:".toList

structure PipelineEnv where
  messages : Except Unit (List Message)
  auth : Str → Bool
  resolve : Str → Str → Bool
  configModel : Option Str
  genOracle : Str → Except Unit Str
  maxTurns : Nat
  maxChars : Nat

/-- generateTitleFromContext: select a model (a thrown selection error is
caught inside and becomes null), call the generator on the combined prompt,
clean the result; any failure yields null. -/
def generateTitleFromContext (env : PipelineEnv) (context : Str) : Option Str :=
  match (selectModel env.auth env.resolve env.configModel).1 with
  | none => none
  | some _ =>
    match env.genOracle (buildPrompt context) with
    | Except.error _ => none
    | Except.ok txt => some (cleanTitle txt)

/-- The body of updateSessionTitle before its catch-all. -/
def runTitlePipeline (env : PipelineEnv) : Except Unit (Option Str) :=
  match env.messages with
  | Except.error e => Except.error e
  | Except.ok msgs =>
    if (extractTurns msgs).length = 0 then Except.ok none
    else
      match generateTitleFromContext env
          (formatContextForTitle (extractTurns msgs) env.maxTurns env.maxChars) with
      | none => Except.ok none
      | some title => Except.ok (some title)

/-- updateSessionTitle with its catch-all: every failure becomes a no-op. -/
def updateSessionTitle (env : PipelineEnv) : Except Unit (Option Str) :=
  match runTitlePipeline env with
  | Except.error _ => Except.ok none
  | Except.ok r => Except.ok r

/-- Some pipeline stage fails: message retrieval, zero turns,
model-selection exhaustion, or the generation call. -/
def pipelineStageFails (env : PipelineEnv) : Prop :=
  (∃ e, env.messages = Except.error e) ∨
    (∃ msgs, env.messages = Except.ok msgs ∧ extractTurns msgs = []) ∨
    (selectModel env.auth env.resolve env.configModel).1 = none ∨
    (∃ msgs, env.messages = Except.ok msgs ∧
      ∃ e, env.genOracle (buildPrompt (formatContextForTitle (extractTurns msgs)
        env.maxTurns env.maxChars)) = Except.error e)

/-- C8: if any pipeline stage fails, the title-update collaborator is never
invoked for that trigger (no title is produced, so the previous title stays),
and the handler never lets an exception escape. -/
theorem C8_failure_isolation (env : PipelineEnv) :
    (pipelineStageFails env → updateSessionTitle env = Except.ok none) ∧
      ∀ e, updateSessionTitle env ≠ Except.error e := by
  constructor
  · intro hfail
    rcases hfail with ⟨e, he⟩ | ⟨msgs, hm, hturns⟩ | hsel | ⟨msgs, hm, e, hg⟩
    · simp [updateSessionTitle, runTitlePipeline, he]
    · simp [updateSessionTitle, runTitlePipeline, hm, hturns]
    · cases hmsg : env.messages with
      | error e => simp [updateSessionTitle, runTitlePipeline, hmsg]
      | ok msgs =>
        by_cases hz : (extractTurns msgs).length = 0
        · simp [updateSessionTitle, runTitlePipeline, hmsg, hz]
        · simp [updateSessionTitle, runTitlePipeline, generateTitleFromContext,
            hmsg, hz, hsel]
    · by_cases hz : (extractTurns msgs).length = 0
      · simp [updateSessionTitle, runTitlePipeline, hm, hz]
      · cases hsel : (selectModel env.auth env.resolve env.configModel).1 with
        | none =>
          simp [updateSessionTitle, runTitlePipeline, generateTitleFromContext,
            hm, hz, hsel]
        | some r =>
          simp [updateSessionTitle, runTitlePipeline, generateTitleFromContext,
            hm, hz, hsel, hg]
  · intro e
    unfold updateSessionTitle
    cases hr : runTitlePipeline env with
    | error e2 => simp
    | ok r => simp

/-- An environment whose message retrieval fails. -/
def c8env : PipelineEnv :=
  ⟨Except.error (), fun _ => false, fun _ _ => false, none,
    fun _ => Except.error (), 5, 500⟩

theorem C8_failure_isolation_witness :
    updateSessionTitle c8env = Except.ok none ∧
      ∀ e, updateSessionTitle c8env ≠ Except.error e :=
  ⟨(C8_failure_isolation c8env).1 (Or.inl ⟨(), rfl⟩), (C8_failure_isolation c8env).2⟩

end SmartTitle
